import Mathlib

/-!
Shallow embedding of the chunked ETL engine in `function_app.py`:
the chunked loader (`load_chunked_blob_data_to_postgres`), the lazy CSV
extractor (`extract_csv_data_from_blob`), the chunked CSV exporter
(`export_clean_data_to_csv_chunked`), and the API snapshot cleaning
(`load_api_data`).  Loops are embedded as fuel-indexed structural
recursions (the wrappers supply provably sufficient fuel), so that all
definitions compute by `decide` / `rfl`.
-/

namespace FunctionApp

/-- One database transaction wrapping a single chunk's bulk insertion,
as issued by the loop body of `load_chunked_blob_data_to_postgres`:
`idx` is the 1-based `chunk_count`, `doTruncate` records whether
`CALL truncate_table(...)` was executed inside this transaction,
`rows` is the materialized window length, and `committed` is true when
the transaction committed (false when it was rolled back and the
exception re-raised). -/
structure Txn where
  idx : Nat
  doTruncate : Bool
  rows : Nat
  committed : Bool
deriving Repr, DecidableEq

/-- The `while True` loop of `load_chunked_blob_data_to_postgres`, over a
dataset of `n` rows.  `polars` slice semantics: the window materialized at
`offset` with limit `c` has `min c (n - offset)` rows.  `fails k` injects
an insertion failure into chunk `k` (the `except` branch: rollback then
re-raise, so the loop stops and the whole load reports failure).
The demo cap breaks out before inserting when `chunk_count == 6` and the
target table is `nppes_providers`.  Returns the transactions issued, in
order, and `true` when the load completed without an exception. -/
def loadLoopFuel (c : Nat) (table : String) (fails : Nat → Bool) (n : Nat) :
    Nat → Nat → Nat → List Txn × Bool
  | 0, _, _ => ([], true)
  | fuel + 1, chunkCount, offset =>
    let cc := chunkCount + 1
    let len := min c (n - offset)
    if len = 0 then ([], true)
    else if cc = 6 ∧ table = "nppes_providers" then ([], true)
    else
      let t : Txn := { idx := cc, doTruncate := cc == 1, rows := len,
                       committed := !(fails cc) }
      if fails cc then ([t], false)
      else if len < c then ([t], true)
      else
        let rest := loadLoopFuel c table fails n fuel cc (offset + len)
        (t :: rest.1, rest.2)

/-- `load_chunked_blob_data_to_postgres` on a lazy dataset of `n` rows,
chunk size `c`, target table `table`, with insertion failures injected by
`fails`.  Fuel `n + 1` is sufficient: each recursive step consumes a full
chunk of `c ≥ 1` rows. -/
def load_chunked_blob_data_to_postgres (n c : Nat) (table : String)
    (fails : Nat → Bool) : List Txn × Bool :=
  loadLoopFuel c table fails n (n + 1) 0 0

/-- The materialized window lengths the loader commits when no insertion
fails (the happy path). -/
def loadedWindows (n c : Nat) (table : String) : List Nat :=
  ((load_chunked_blob_data_to_postgres n c table fun _ => false).1).map Txn.rows

/-- Reference chunk decomposition: the lengths of successive windows of
size `c` over `n` rows, stopping at the first short window. -/
def chunkLensFuel (c : Nat) : Nat → Nat → List Nat
  | 0, _ => []
  | fuel + 1, n =>
    let len := min c n
    if len = 0 then []
    else if len < c then [len]
    else len :: chunkLensFuel c fuel (n - c)

/-- The window lengths of a full (uncapped, failure-free) chunked pass
over `n` rows with chunk size `c`. -/
def chunkLens (n c : Nat) : List Nat := chunkLensFuel c (n + 1) n

/-- The column-name schema of a parsed tabular source (the lazy frame
produced by `polars.scan_csv`), in source order.  Only names are
modelled; per-column type overrides do not affect any claim. -/
structure Frame where
  cols : List String
deriving Repr, DecidableEq

/-- Column renaming per `polars .rename(column_mapping)`: a column named
by a key of the mapping takes the mapped name, others keep theirs. -/
def renameCol (column_mapping : List (String × String)) (c : String) :
    String :=
  match column_mapping.find? (fun p => p.1 = c) with
  | some p => p.2
  | none => c

/-- A `polars` LazyFrame as produced by
`scan_csv(...).select(relevant_columns).rename(column_mapping)` (or the
bare `scan_csv(...)` when the retain list is empty): an unevaluated plan
recording the scanned source and the pending projection/rename.
Building the plan validates nothing — a malformed source
(`parsed = none`) or a missing selected column raises only when the plan
is collected.  `parsed` is the source schema if the bytes parse as CSV. -/
structure LazyFrame where
  parsed : Option Frame
  relevant : List String
  mapping : List (String × String)
deriving Repr, DecidableEq

/-- `extract_csv_data_from_blob`: the blob download into `file_buffer`
is eager, so a failed or unobtainable stream (`downloaded = none`)
raises inside the function's `try` and is caught, returning `None`.
The subsequent `scan_csv(...).select(...).rename(...)` only builds a
lazy plan — a malformed source or a missing retain-list column raises
nothing at this point — so every successfully downloaded source
(`downloaded = some p`, where `p` records whether the bytes will parse)
yields a plan. -/
def extract_csv_data_from_blob (downloaded : Option (Option Frame))
    (relevant_columns : List String)
    (column_mapping : List (String × String)) : Option LazyFrame :=
  match downloaded with
  | none => none
  | some p => some ⟨p, relevant_columns, column_mapping⟩

/-- Schema resolution at `.collect()` time (first performed inside
`load_chunked_blob_data_to_postgres`, line 307): a malformed source
raises (`none`); an empty retain list keeps the source schema unchanged
(no select/rename node exists in that plan); otherwise the selected
columns are projected in retain-list order and renamed — unless a
selected column is missing from the source, which raises (`none`). -/
def LazyFrame.collectSchema (lf : LazyFrame) : Option Frame :=
  match lf.parsed with
  | none => none
  | some f =>
    if lf.relevant = [] then some f
    else if lf.relevant.all (fun c => f.cols.contains c) then
      some ⟨lf.relevant.map (renameCol lf.mapping)⟩
    else none

/-- One CSV source of the `NPPES_Data_Cleaning` pipeline: its stream
acquisition outcome (outer `Option`: did the download succeed; inner:
does the content parse), retain list, rename mapping, target table. -/
structure SourceSpec where
  stream : Option (Option Frame)
  relevant : List String
  mapping : List (String × String)
  table : String
deriving Repr, DecidableEq

/-- The caller skeleton of `NPPES_Data_Cleaning`: sources are processed
in order; a `None` extraction is skipped (`if lazy_df is not None`) and
the next source is processed, while a plan whose first collect fails
makes `load_chunked_blob_data_to_postgres` roll back and re-raise, so
the whole request aborts and no later source is processed.  Returns the
tables loaded and whether the run completed without aborting. -/
def runPipeline : List SourceSpec → List String × Bool
  | [] => ([], true)
  | s :: rest =>
    match extract_csv_data_from_blob s.stream s.relevant s.mapping with
    | none => runPipeline rest
    | some lf =>
      match lf.collectSchema with
      | none => ([], false)
      | some _ =>
        (s.table :: (runPipeline rest).1, (runPipeline rest).2)

/-- The header list of `export_clean_data_to_csv_chunked`. -/
def exportHeaders : List String :=
  ["npi", "entity_type", "entity_name", "provider_location_address_1",
   "provider_location_address_2", "provider_city", "provider_state",
   "provider_postal_code_clean", "county_name", "state_name",
   "primary_taxonomy_code", "taxonomy_grouping",
   "taxonomy_classification", "taxonomy_specialization",
   "data_quality_score"]

/-- Python `str.zfill(w)`: left-pad with ASCII zeros to width `w`; a
leading sign stays in front of the padding. -/
def zfill (w : Nat) (s : String) : String :=
  if w ≤ s.length then s
  else
    match s.data with
    | c :: rest =>
      if c = '+' ∨ c = '-' then
        String.mk (c :: (List.replicate (w - s.length) '0' ++ rest))
      else String.mk (List.replicate (w - s.length) '0' ++ s.data)
    | [] => String.mk (List.replicate w '0')

/-- Python `str_value.replace(chr(34), chr(34) * 2)`: double every
internal double-quote character. -/
def escapeQuotes (s : String) : String :=
  String.mk (s.data.flatMap fun ch => if ch = '"' then ['"', '"'] else [ch])

/-- The per-field escaping of the exporter's row loop: a SQL NULL renders
as the two-character field `""`; the column named
`provider_postal_code_clean` is zero-padded to width 5 first; then quotes
are doubled and the value is wrapped in double quotes. -/
def escapeField (header : String) (v : Option String) : String :=
  match v with
  | none => "\"\""
  | some value =>
    let strValue :=
      if header = "provider_postal_code_clean" then zfill 5 value else value
    "\"" ++ escapeQuotes strValue ++ "\""

/-- One exported row: each value escaped against its positional header
(`headers[i]`), as in the exporter's `for i, value in enumerate(row)`. -/
def escapeRow (row : List (Option String)) : List String :=
  (exportHeaders.zip row).map fun p => escapeField p.1 p.2

/-- The `",".join(escaped_row)` of the exporter. -/
def renderRow (row : List (Option String)) : String :=
  String.intercalate "," (escapeRow row)

/-- The header line `",".join(chr(34) + col + chr(34) for col in headers)`. -/
def headerLine : String :=
  String.intercalate "," (exportHeaders.map fun col => "\"" ++ col ++ "\"")

/-- The store-side paginated reader `get_export_chunk(limit, offset)`
over a cleaned view holding the row list `db`. -/
def get_export_chunk {α : Type} (db : List α) (limit offset : Nat) :
    List α :=
  (db.drop offset).take limit

/-- The export pagination loop: fetch a page at `chunk_start`, stop on an
empty page, otherwise keep the page and stop if it was short, else
advance `chunk_start` by `chunk_size`.  Each list entry is the row set
returned by one `get_export_chunk` call, in call order. -/
def exportLoopFuel {α : Type} (db : List α) (chunk_size : Nat) :
    Nat → Nat → List (List α)
  | 0, _ => []
  | fuel + 1, chunk_start =>
    let rows := get_export_chunk db chunk_size chunk_start
    if rows.length = 0 then [rows]
    else if rows.length < chunk_size then [rows]
    else rows :: exportLoopFuel db chunk_size fuel (chunk_start + chunk_size)

/-- All pages fetched by `export_clean_data_to_csv_chunked` (fuel
`db.length + 1` is sufficient: every recursive step consumes a full page
of `chunk_size ≥ 1` rows). -/
def exportPages {α : Type} (db : List α) (chunk_size : Nat) :
    List (List α) :=
  exportLoopFuel db chunk_size (db.length + 1) 0

/-- The accumulated `csv_content` list of the exporter: the header line,
then one rendered line per fetched row. -/
def exportLines (db : List (List (Option String))) (chunk_size : Nat) :
    List String :=
  headerLine :: ((exportPages db chunk_size).flatten.map renderRow)

/-- The final artifact text of `export_clean_data_to_csv_chunked`:
`chr(10).join(csv_content)`, uploaded as a single blob. -/
def export_clean_data_to_csv_chunked (db : List (List (Option String)))
    (chunk_size : Nat) : String :=
  String.intercalate "\n" (exportLines db chunk_size)

/-- A raw row of the census API response, as consumed by
`load_api_data` after the rename/select steps: the four retained columns,
each possibly null. -/
structure ApiRow where
  name : Option String
  population : Option String
  state_fips : Option String
  county_fips : Option String
deriving Repr, DecidableEq

/-- An API row after the population column has been cast to integer. -/
structure ApiRowTyped where
  name : Option String
  population : Option Int
  state_fips : Option String
  county_fips : Option String
deriving Repr, DecidableEq

/-- Digit-string value, or `none` if empty or containing a non-digit. -/
def digitsToNat (l : List Char) : Option Nat :=
  if l = [] then none
  else if l.all Char.isDigit then
    some (l.foldl (fun acc ch => acc * 10 + (ch.toNat - '0'.toNat)) 0)
  else none

/-- The `polars` string-to-Int32 cast with `strict=False`: an optional
sign followed by digits, within the Int32 range; anything else becomes
null. -/
def parseInt32 (s : String) : Option Int :=
  let signed : Option Int :=
    match s.data with
    | '+' :: rest => (digitsToNat rest).map fun m => (m : Int)
    | '-' :: rest => (digitsToNat rest).map fun m => -(m : Int)
    | l => (digitsToNat l).map fun m => (m : Int)
  signed.bind fun i =>
    if -(2 ^ 31) ≤ i ∧ i < 2 ^ 31 then some i else none

/-- `df.with_columns(df[population].cast(polars.Int32, strict=False))`:
coerce the population column, non-coercible values becoming null. -/
def castPopulation (r : ApiRow) : ApiRowTyped :=
  ⟨r.name, r.population.bind parseInt32, r.state_fips, r.county_fips⟩

/-- The `df.filter(... is_not_null ...)` step of `load_api_data`: drop
every row with a null in any of the four retained columns. -/
def dropNullRequired (rows : List ApiRowTyped) : List ApiRowTyped :=
  rows.filter fun r =>
    r.population.isSome && r.name.isSome && r.state_fips.isSome &&
      r.county_fips.isSome

/-- Lines 42–51 of `load_api_data`: integer coercion of the population
column followed by the required-column null filter. -/
def load_api_data_filtered (rows : List ApiRow) : List ApiRowTyped :=
  dropNullRequired (rows.map castPopulation)

/-- Python `str.split(sep)` at the character level. -/
def splitOnChar (sep : Char) : List Char → List (List Char)
  | [] => [[]]
  | c :: cs =>
    if c = sep then [] :: splitOnChar sep cs
    else
      match splitOnChar sep cs with
      | [] => [[c]]
      | p :: ps => (c :: p) :: ps

/-- Python `str.splitlines()` for text whose only line terminator is the
newline character (what `polars.write_csv` emits). -/
def splitlinesPy (l : List Char) : List (List Char) :=
  if (splitOnChar '\n' l).getLast? = some [] then
    (splitOnChar '\n' l).dropLast
  else splitOnChar '\n' l

/-- Whether `polars.write_csv` (default `quote_style=necessary`) must
quote a field, given separator `\t`: it contains the separator, a quote,
or a line terminator. -/
def needsQuotes (f : List Char) : Bool :=
  f.any fun ch => ch = '\t' ∨ ch = '\n' ∨ ch = '\r' ∨ ch = '"'

/-- `polars.write_csv` field rendering with separator `\t`: quoted (with
internal quotes doubled) exactly when necessary. -/
def quoteFieldTSV (f : List Char) : List Char :=
  if needsQuotes f then
    '"' :: (f.flatMap fun ch => if ch = '"' then ['"', '"'] else [ch]) ++ ['"']
  else f

/-- `df.write_csv(output, separator=tab, include_header=False)`: one
record per row — fields rendered and tab-joined — each followed by a
newline. -/
def writeCsvTSVNoHeader (rows : List (List (List Char))) : List Char :=
  rows.flatMap fun r =>
    List.intercalate ['\t'] (r.map quoteFieldTSV) ++ ['\n']

/-- Lines 74–80 of `load_api_data`: split the serialized text into
lines and keep only those that are non-blank (`line.strip()`) and split
into exactly 4 tab-separated fields. -/
def cleaned_lines (rows : List (List (List Char))) : List (List Char) :=
  (splitlinesPy (writeCsvTSVNoHeader rows)).filter fun line =>
    (line.any fun ch => !ch.isWhitespace) &&
      (splitOnChar '\t' line).length == 4

theorem chunkLensFuel_succ (c fuel n : Nat) :
    chunkLensFuel c (fuel + 1) n =
      (if min c n = 0 then []
       else if min c n < c then [min c n]
       else min c n :: chunkLensFuel c fuel (n - c)) := rfl

theorem chunkLensFuel_congr (c : Nat) :
    ∀ f f' n, n < f → n < f' → chunkLensFuel c f n = chunkLensFuel c f' n := by
  intro f
  induction f with
  | zero => intro f' n h; omega
  | succ f ih =>
    intro f' n h h'
    obtain ⟨g, rfl⟩ : ∃ g, f' = g + 1 := ⟨f' - 1, by omega⟩
    rw [chunkLensFuel_succ, chunkLensFuel_succ]
    by_cases h0 : min c n = 0
    · simp [h0]
    · simp only [h0, if_false]
      by_cases hs : min c n < c
      · simp [hs]
      · simp only [hs, if_false]
        rw [ih g (n - c) (by omega) (by omega)]

theorem chunkLens_zero_rows (c : Nat) : chunkLens 0 c = [] := by
  simp [chunkLens, chunkLensFuel]

theorem chunkLens_zero_size (n : Nat) : chunkLens n 0 = [] := by
  cases n <;> simp [chunkLens, chunkLensFuel]

theorem chunkLens_short (n c : Nat) (h0 : 0 < n) (h : n < c) :
    chunkLens n c = [n] := by
  have h1 : min c n = n := by omega
  rw [chunkLens, chunkLensFuel_succ, h1, if_neg (by omega : ¬ n = 0), if_pos h]

theorem chunkLens_step (n c : Nat) (hc : 0 < c) (h : c ≤ n) :
    chunkLens n c = c :: chunkLens (n - c) c := by
  rw [chunkLens, chunkLensFuel_succ]
  have h1 : min c n = c := by omega
  simp only [h1, if_neg (by omega : ¬ c = 0), if_neg (by omega : ¬ c < c)]
  rw [chunkLens, chunkLensFuel_congr c (n - c + 1) n (n - c) (by omega) (by omega)]

theorem chunkLens_length (n c : Nat) (hc : 0 < c) :
    (chunkLens n c).length = (n + c - 1) / c := by
  induction n using Nat.strong_induction_on with
  | _ n ih =>
    rcases Nat.eq_zero_or_pos n with h0 | h0
    · subst h0
      rw [chunkLens_zero_rows, List.length_nil,
        Nat.div_eq_of_lt (by omega : 0 + c - 1 < c)]
    · by_cases h : n < c
      · rw [chunkLens_short n c h0 h]
        have he : n + c - 1 = (n - 1) + c := by omega
        rw [List.length_singleton, he, Nat.add_div_right _ hc,
          Nat.div_eq_of_lt (by omega : n - 1 < c)]
      · rw [chunkLens_step n c hc (by omega)]
        rw [List.length_cons, ih (n - c) (by omega)]
        have he : n + c - 1 = (n - c + c - 1) + c := by omega
        rw [he, Nat.add_div_right _ hc]

theorem chunkLens_sum (n c : Nat) (hc : 0 < c) : (chunkLens n c).sum = n := by
  induction n using Nat.strong_induction_on with
  | _ n ih =>
    rcases Nat.eq_zero_or_pos n with h0 | h0
    · subst h0; rw [chunkLens_zero_rows]; rfl
    · by_cases h : n < c
      · rw [chunkLens_short n c h0 h]; simp
      · rw [chunkLens_step n c hc (by omega)]
        rw [List.sum_cons, ih (n - c) (by omega)]
        omega

theorem chunkLens_nonfinal (n c : Nat) (hc : 0 < c) :
    ∀ i, i + 1 < (chunkLens n c).length → (chunkLens n c)[i]? = some c := by
  induction n using Nat.strong_induction_on with
  | _ n ih =>
    intro i h
    rcases Nat.eq_zero_or_pos n with h0 | h0
    · subst h0; rw [chunkLens_zero_rows] at h; simp at h
    · by_cases hs : n < c
      · rw [chunkLens_short n c h0 hs] at h; simp at h
      · have hstep := chunkLens_step n c hc (by omega)
        cases i with
        | zero => simp [hstep]
        | succ j =>
          have h' : j + 1 < (chunkLens (n - c) c).length := by
            rw [hstep] at h; simpa using h
          rw [hstep, List.getElem?_cons_succ]
          exact ih (n - c) (by omega) j h'

theorem chunkLens_nonempty (n c : Nat) (hc : 0 < c) (h0 : 0 < n) :
    chunkLens n c ≠ [] := by
  intro hcontra
  have := chunkLens_sum n c hc
  rw [hcontra] at this
  simp at this
  omega

theorem chunkLens_getLast (n c : Nat) (hc : 0 < c) (h0 : 0 < n) :
    (chunkLens n c).getLast? = some (if n % c = 0 then c else n % c) := by
  induction n using Nat.strong_induction_on with
  | _ n ih =>
    by_cases hs : n < c
    · rw [chunkLens_short n c h0 hs, List.getLast?_singleton,
        Nat.mod_eq_of_lt hs, if_neg (by omega)]
    · rw [chunkLens_step n c hc (by omega)]
      rcases Nat.eq_zero_or_pos (n - c) with hz | hz
      · have hm0 : n % c = 0 := by
          rw [show n = c by omega]; exact Nat.mod_self c
        rw [hz, chunkLens_zero_rows, List.getLast?_singleton, if_pos hm0]
      · have hne := chunkLens_nonempty (n - c) c hc hz
        obtain ⟨b, t, hbt⟩ : ∃ b t, chunkLens (n - c) c = b :: t := by
          cases hcl : chunkLens (n - c) c with
          | nil => exact absurd hcl hne
          | cons b t => exact ⟨b, t, rfl⟩
        have hmod : (n - c) % c = n % c := by
          conv_rhs => rw [show n = (n - c) + c by omega]
          rw [Nat.add_mod_right]
        rw [hbt, List.getLast?_cons_cons, ← hbt, ih (n - c) (by omega) hz, hmod]

theorem loadLoopFuel_succ (c : Nat) (table : String) (fails : Nat → Bool)
    (n fuel j offset : Nat) :
    loadLoopFuel c table fails n (fuel + 1) j offset =
      (if min c (n - offset) = 0 then ([], true)
       else if j + 1 = 6 ∧ table = "nppes_providers" then ([], true)
       else if fails (j + 1) then
         ([⟨j + 1, j + 1 == 1, min c (n - offset), !(fails (j + 1))⟩], false)
       else if min c (n - offset) < c then
         ([⟨j + 1, j + 1 == 1, min c (n - offset), !(fails (j + 1))⟩], true)
       else
         (⟨j + 1, j + 1 == 1, min c (n - offset), !(fails (j + 1))⟩ ::
            (loadLoopFuel c table fails n fuel (j + 1)
              (offset + min c (n - offset))).1,
          (loadLoopFuel c table fails n fuel (j + 1)
            (offset + min c (n - offset))).2)) := rfl

theorem loadLoop_noFail_rows (c : Nat) (table : String)
    (hT : table ≠ "nppes_providers") (n : Nat) :
    ∀ fuel j offset, n - offset < fuel →
      ((loadLoopFuel c table (fun _ => false) n fuel j offset).1).map Txn.rows =
        chunkLens (n - offset) c := by
  intro fuel
  induction fuel with
  | zero => intro j offset h; omega
  | succ fuel ih =>
    intro j offset h
    rw [loadLoopFuel_succ]
    by_cases h0 : min c (n - offset) = 0
    · rw [if_pos h0]
      rcases (by omega : c = 0 ∨ n - offset = 0) with hz | hz
      · rw [hz, chunkLens_zero_size]; rfl
      · rw [hz, chunkLens_zero_rows]; rfl
    · rw [if_neg h0, if_neg (by simp [hT]), if_neg (by simp)]
      by_cases hs : min c (n - offset) < c
      · rw [if_pos hs]
        have hlt : n - offset < c := by omega
        have hmin : min c (n - offset) = n - offset := by omega
        rw [chunkLens_short (n - offset) c (by omega) hlt]
        simp [hmin]
      · rw [if_neg hs]
        have hmin : min c (n - offset) = c := by omega
        have hc : 0 < c := by omega
        rw [List.map_cons, hmin, ih (j + 1) (offset + c) (by omega)]
        rw [chunkLens_step (n - offset) c hc (by omega)]
        have : n - (offset + c) = n - offset - c := by omega
        rw [this]

theorem loadLoop_nppes_rows (c n : Nat) :
    ∀ fuel j offset, n - offset < fuel → j ≤ 5 →
      ((loadLoopFuel c "nppes_providers" (fun _ => false) n fuel j offset).1).map
          Txn.rows =
        (chunkLens (n - offset) c).take (5 - j) := by
  intro fuel
  induction fuel with
  | zero => intro j offset h; omega
  | succ fuel ih =>
    intro j offset h hj
    rw [loadLoopFuel_succ]
    by_cases h0 : min c (n - offset) = 0
    · rw [if_pos h0]
      rcases (by omega : c = 0 ∨ n - offset = 0) with hz | hz
      · rw [hz, chunkLens_zero_size]; simp
      · rw [hz, chunkLens_zero_rows]; simp
    · rw [if_neg h0]
      by_cases hcap : j + 1 = 6
      · rw [if_pos ⟨hcap, rfl⟩]
        have : 5 - j = 0 := by omega
        rw [this, List.take_zero]; rfl
      · rw [if_neg (by simp [hcap]), if_neg (by simp)]
        have hj5 : j < 5 := by omega
        by_cases hs : min c (n - offset) < c
        · rw [if_pos hs]
          have hlt : n - offset < c := by omega
          have hmin : min c (n - offset) = n - offset := by omega
          rw [chunkLens_short (n - offset) c (by omega) hlt]
          have : ∃ m, 5 - j = m + 1 := ⟨5 - j - 1, by omega⟩
          obtain ⟨m, hm⟩ := this
          rw [hm, List.take_succ_cons, List.take_nil]
          simp [hmin]
        · rw [if_neg hs]
          have hmin : min c (n - offset) = c := by omega
          have hc : 0 < c := by omega
          rw [List.map_cons, hmin, ih (j + 1) (offset + c) (by omega) (by omega)]
          rw [chunkLens_step (n - offset) c hc (by omega)]
          obtain ⟨m, hm⟩ : ∃ m, 5 - j = m + 1 := ⟨5 - j - 1, by omega⟩
          rw [hm, List.take_succ_cons]
          have h1 : n - (offset + c) = n - offset - c := by omega
          have h2 : 5 - (j + 1) = m := by omega
          rw [h1, h2]

theorem loadLoop_mem_idx (c : Nat) (table : String) (fails : Nat → Bool)
    (n : Nat) :
    ∀ fuel j offset t, t ∈ (loadLoopFuel c table fails n fuel j offset).1 →
      j + 1 ≤ t.idx ∧ t.doTruncate = (t.idx == 1) ∧
        t.committed = !(fails t.idx) := by
  intro fuel
  induction fuel with
  | zero => intro j offset t ht; simp [loadLoopFuel] at ht
  | succ fuel ih =>
    intro j offset t ht
    rw [loadLoopFuel_succ] at ht
    by_cases h0 : min c (n - offset) = 0
    · rw [if_pos h0] at ht; simp at ht
    · rw [if_neg h0] at ht
      by_cases hcap : j + 1 = 6 ∧ table = "nppes_providers"
      · rw [if_pos hcap] at ht; simp at ht
      · rw [if_neg hcap] at ht
        by_cases hf : fails (j + 1)
        · rw [if_pos hf] at ht
          simp only [List.mem_singleton] at ht
          subst ht; exact ⟨le_refl _, rfl, rfl⟩
        · rw [if_neg hf] at ht
          by_cases hs : min c (n - offset) < c
          · rw [if_pos hs] at ht
            simp only [List.mem_singleton] at ht
            subst ht; exact ⟨le_refl _, rfl, rfl⟩
          · rw [if_neg hs] at ht
            rcases List.mem_cons.mp ht with hh | hrest
            · subst hh; exact ⟨le_refl _, rfl, rfl⟩
            · have := ih (j + 1) (offset + min c (n - offset)) t hrest
              exact ⟨by omega, this.2.1, this.2.2⟩

theorem getLast?_cons_ne {α : Type} (a : α) (l : List α) (h : l ≠ []) :
    (a :: l).getLast? = l.getLast? := by
  cases l with
  | nil => exact absurd rfl h
  | cons b t => rw [List.getLast?_cons_cons]

theorem loadLoop_failAt (c k : Nat) (table : String)
    (hT : table ≠ "nppes_providers") (hc : 0 < c) (n : Nat)
    (hn : (k - 1) * c < n) :
    ∀ fuel j offset, n - offset < fuel → offset = j * c → j < k →
      let p := loadLoopFuel c table (fun i => i == k) n fuel j offset
      p.2 = false ∧ p.1.length = k - j ∧
        p.1.map Txn.idx = List.range' (j + 1) (k - j) ∧
        (∀ t ∈ p.1.dropLast, t.committed = true ∧ t.rows = c) ∧
        p.1.getLast?.map Txn.committed = some false ∧
        p.1.getLast?.map Txn.rows = some (min c (n - (k - 1) * c)) := by
  intro fuel
  induction fuel with
  | zero => intro j offset h; omega
  | succ fuel ih =>
    intro j offset h hoff hjk
    have hoffn : offset ≤ (k - 1) * c := by
      rw [hoff]
      exact Nat.mul_le_mul_right c (by omega)
    have h0 : ¬ min c (n - offset) = 0 := by omega
    rw [loadLoopFuel_succ, if_neg h0, if_neg (by simp [hT])]
    by_cases hfk : j + 1 = k
    · rw [if_pos (by simp [hfk])]
      have hkj : (k - 1) * c = offset := by
        rw [show k - 1 = j by omega]; exact hoff.symm
      refine ⟨rfl, by simp; omega, ?_, by simp, by simp [hfk], by simp [hkj]⟩
      rw [show k - j = 1 by omega, List.range'_one]
      simp [hfk]
    · rw [if_neg (by simp [hfk])]
      have hjk1 : j + 1 < k := by omega
      have hfull : c ≤ n - offset := by
        have : (j + 1) * c ≤ (k - 1) * c :=
          Nat.mul_le_mul_right c (by omega)
        have : (j + 1) * c < n := by omega
        have : j * c + c < n := by
          have he : (j + 1) * c = j * c + c := by ring
          omega
        omega
      have hs : ¬ min c (n - offset) < c := by omega
      have hmin : min c (n - offset) = c := by omega
      rw [if_neg hs]
      have hrec := ih (j + 1) (offset + min c (n - offset))
        (by omega) (by rw [hmin, hoff]; ring) hjk1
      set p := loadLoopFuel c table (fun i => i == k) n fuel (j + 1)
        (offset + min c (n - offset)) with hp
      obtain ⟨hr2, hrlen, hridx, hrdrop, hrlastc, hrlastr⟩ := hrec
      have hpne : p.1 ≠ [] := by
        intro hcontra
        rw [hcontra] at hrlen
        simp at hrlen
        omega
      refine ⟨hr2, ?_, ?_, ?_, ?_, ?_⟩
      · simp only [List.length_cons, hrlen]; omega
      · simp only [List.map_cons, hridx]
        have : k - j = (k - (j + 1)) + 1 := by omega
        rw [this, List.range'_succ]
      · intro t ht
        rw [List.dropLast_cons_of_ne_nil hpne] at ht
        rcases List.mem_cons.mp ht with hh | hrest
        · subst hh
          constructor
          · simp [Txn.committed]
            omega
          · simpa using hmin
        · exact hrdrop t hrest
      · show Option.map Txn.committed
          ((⟨j + 1, j + 1 == 1, min c (n - offset), !((j + 1) == k)⟩ : Txn) ::
            p.1).getLast? = some false
        rw [getLast?_cons_ne _ _ hpne]
        exact hrlastc
      · show Option.map Txn.rows
          ((⟨j + 1, j + 1 == 1, min c (n - offset), !((j + 1) == k)⟩ : Txn) ::
            p.1).getLast? = some (min c (n - (k - 1) * c))
        rw [getLast?_cons_ne _ _ hpne]
        exact hrlastr

theorem chunkLens_take_sum (n c : Nat) (hc : 0 < c) :
    ∀ i, i < (chunkLens n c).length → ((chunkLens n c).take i).sum = i * c := by
  induction n using Nat.strong_induction_on with
  | _ n ih =>
    intro i h
    rcases Nat.eq_zero_or_pos n with h0 | h0
    · subst h0; rw [chunkLens_zero_rows] at h; simp at h
    · by_cases hs : n < c
      · rw [chunkLens_short n c h0 hs] at h ⊢
        have hi : i = 0 := by simp at h; omega
        subst hi; simp
      · have hstep := chunkLens_step n c hc (by omega)
        cases i with
        | zero => simp
        | succ j =>
          have h' : j < (chunkLens (n - c) c).length := by
            rw [hstep] at h; simpa using h
          rw [hstep, List.take_succ_cons, List.sum_cons, ih (n - c) (by omega) j h']
          ring

theorem chunkLens_mem_le (n c : Nat) : ∀ x ∈ chunkLens n c, x ≤ c := by
  induction n using Nat.strong_induction_on with
  | _ n ih =>
    intro x hx
    rcases Nat.eq_zero_or_pos c with hc | hc
    · rw [hc, chunkLens_zero_size] at hx; simp at hx
    · rcases Nat.eq_zero_or_pos n with h0 | h0
      · rw [h0, chunkLens_zero_rows] at hx; simp at hx
      · by_cases hs : n < c
        · rw [chunkLens_short n c h0 hs] at hx
          simp at hx; omega
        · rw [chunkLens_step n c hc (by omega)] at hx
          rcases List.mem_cons.mp hx with hh | hrest
          · omega
          · exact ih (n - c) (by omega) x hrest

theorem loadedWindows_eq_chunkLens (n c : Nat) (table : String)
    (hT : table ≠ "nppes_providers") :
    loadedWindows n c table = chunkLens n c := by
  rw [loadedWindows, load_chunked_blob_data_to_postgres,
    loadLoop_noFail_rows c table hT n (n + 1) 0 0 (by omega), Nat.sub_zero]

theorem loadedWindows_nppes_eq (n c : Nat) :
    loadedWindows n c "nppes_providers" = (chunkLens n c).take 5 := by
  rw [loadedWindows, load_chunked_blob_data_to_postgres,
    loadLoop_nppes_rows c n (n + 1) 0 0 (by omega) (by omega)]
  simp

theorem load_chunked_pos_shape (n c : Nat) (table : String) (fails : Nat → Bool)
    (hn : 0 < n) (hc : 0 < c) :
    ∃ rest : List Txn,
      (load_chunked_blob_data_to_postgres n c table fails).1 =
        (⟨1, true, min c n, !(fails 1)⟩ : Txn) :: rest ∧
        ∀ t ∈ rest, 2 ≤ t.idx ∧ t.doTruncate = (t.idx == 1) := by
  rw [load_chunked_blob_data_to_postgres, loadLoopFuel_succ]
  simp only [Nat.zero_add, Nat.sub_zero]
  rw [if_neg (by omega : ¬ min c n = 0), if_neg (by simp : ¬ ((1:Nat) = 6 ∧ table = "nppes_providers"))]
  by_cases hf : fails 1
  · rw [if_pos hf]
    exact ⟨[], rfl, by simp⟩
  · rw [if_neg hf]
    by_cases hs : min c n < c
    · rw [if_pos hs]
      exact ⟨[], rfl, by simp⟩
    · rw [if_neg hs]
      refine ⟨(loadLoopFuel c table fails n n 1 (min c n)).1, rfl, ?_⟩
      intro t ht
      have := loadLoop_mem_idx c table fails n n 1 (min c n) t ht
      exact ⟨this.1, this.2.1⟩

/-- Claim C1 (corrected): with chunk size `c = 2` on a dataset of `n = 2`
rows (so `c` divides `n`), the single loaded window — which is also the
final one — has length exactly `2 = c`, not strictly less than `c`; the
loop is terminated by the following empty window, not by a short read. -/
theorem C1_counterexample :
    loadedWindows 2 2 "zip_county" = [2] ∧ ¬ ((2:Nat) < 2) := by
  refine ⟨by decide, by omega⟩

/-- Claim C1 (amended): for every dataset size `n` and chunk size `c > 0`,
the uncapped loader (any target table other than `nppes_providers`) loads
exactly `ceil(n/c)` windows whose lengths sum to `n`; window `i` is
materialized at offset `i * c`; every non-final window has length exactly
`c`; and the final loaded window has length `n % c` when `c` does not
divide `n` (strictly short), and length exactly `c` when `c` divides a
positive `n` (in which case termination is via a trailing empty window,
not a short read). -/
theorem C1_loader_window_decomposition (n c : Nat) (table : String)
    (hT : table ≠ "nppes_providers") (hc : 0 < c) :
    (loadedWindows n c table).length = (n + c - 1) / c ∧
    (loadedWindows n c table).sum = n ∧
    (∀ i, i + 1 < (loadedWindows n c table).length →
      (loadedWindows n c table)[i]? = some c) ∧
    (∀ i, i < (loadedWindows n c table).length →
      ((loadedWindows n c table).take i).sum = i * c) ∧
    (0 < n → (loadedWindows n c table).getLast? =
      some (if n % c = 0 then c else n % c)) := by
  rw [loadedWindows_eq_chunkLens n c table hT]
  exact ⟨chunkLens_length n c hc, chunkLens_sum n c hc,
    chunkLens_nonfinal n c hc, chunkLens_take_sum n c hc,
    fun h0 => chunkLens_getLast n c hc h0⟩

theorem C1_witness :
    (loadedWindows 5 2 "zip_county").length = (5 + 2 - 1) / 2 ∧
    (loadedWindows 5 2 "zip_county").sum = 5 ∧
    (loadedWindows 5 2 "zip_county").getLast? =
      some (if 5 % 2 = 0 then 2 else 5 % 2) :=
  ⟨(C1_loader_window_decomposition 5 2 "zip_county" (by decide) (by decide)).1,
   (C1_loader_window_decomposition 5 2 "zip_county" (by decide) (by decide)).2.1,
   (C1_loader_window_decomposition 5 2 "zip_county" (by decide)
      (by decide)).2.2.2.2 (by decide)⟩

/-- Claim C2 (corrected): on an empty dataset (`n = 0`) the loader issues
no transaction at all, so the truncate procedure is invoked zero times,
not exactly once. -/
theorem C2_counterexample :
    ((load_chunked_blob_data_to_postgres 0 2 "zip_county"
        (fun _ => false)).1).countP (fun t => t.doTruncate) = 0 ∧
    (0 : Nat) ≠ 1 := by
  refine ⟨by decide, by omega⟩

/-- Claim C2 (amended): whenever the dataset is non-empty (so at least one
chunk is materialized), the truncate procedure is invoked exactly once,
inside the very first chunk's transaction — whose commit/rollback outcome
it shares, `committed = !(fails 1)` — and never in any later chunk's
transaction; on an empty dataset no chunk and no truncate is issued. -/
theorem C2_truncate_first_chunk (n c : Nat) (table : String)
    (fails : Nat → Bool) (hn : 0 < n) (hc : 0 < c) :
    ((load_chunked_blob_data_to_postgres n c table fails).1).countP
        (fun t => t.doTruncate) = 1 ∧
    ((load_chunked_blob_data_to_postgres n c table fails).1)[0]? =
      some ⟨1, true, min c n, !(fails 1)⟩ ∧
    (∀ t ∈ (load_chunked_blob_data_to_postgres n c table fails).1,
      t.doTruncate = true → t.idx = 1) := by
  obtain ⟨rest, hshape, hrest⟩ := load_chunked_pos_shape n c table fails hn hc
  rw [hshape]
  refine ⟨?_, by simp, ?_⟩
  · rw [List.countP_cons]
    have hz : rest.countP (fun t => t.doTruncate) = 0 := by
      rw [List.countP_eq_zero]
      intro t ht
      obtain ⟨hidx, hdt⟩ := hrest t ht
      simp only [hdt, beq_iff_eq]
      omega
    rw [hz]
    simp
  · intro t ht hdt
    rcases List.mem_cons.mp ht with hh | hr
    · rw [hh]
    · obtain ⟨hidx, hdteq⟩ := hrest t hr
      rw [hdteq] at hdt
      simp only [beq_iff_eq] at hdt
      omega

theorem C2_witness :
    ((load_chunked_blob_data_to_postgres 3 2 "zip_county"
        (fun _ => false)).1).countP (fun t => t.doTruncate) = 1 ∧
    ((load_chunked_blob_data_to_postgres 3 2 "zip_county"
        (fun _ => false)).1)[0]? = some ⟨1, true, 2, true⟩ :=
  ⟨(C2_truncate_first_chunk 3 2 "zip_county" (fun _ => false)
      (by decide) (by decide)).1,
   (C2_truncate_first_chunk 3 2 "zip_county" (fun _ => false)
      (by decide) (by decide)).2.1⟩

/-- Claim C3: if the bulk insertion of chunk `k` fails (and the cap is not
in play), the run reports failure (`p.2 = false`, the exception is
re-raised after rollback), exactly chunks `1..k` were attempted, chunks
`1..k-1` all committed with a full `c` rows each — `(k-1)*c` rows remain
applied — and chunk `k`'s transaction was rolled back; no chunk after `k`
is attempted. -/
theorem C3_chunk_failure_aborts (n c k : Nat) (table : String)
    (hT : table ≠ "nppes_providers") (hc : 0 < c) (hk : 0 < k)
    (hreach : (k - 1) * c < n) :
    (load_chunked_blob_data_to_postgres n c table (fun i => i == k)).2 =
      false ∧
    ((load_chunked_blob_data_to_postgres n c table (fun i => i == k)).1).length
      = k ∧
    ((load_chunked_blob_data_to_postgres n c table
        (fun i => i == k)).1).map Txn.idx = List.range' 1 k ∧
    (∀ t ∈ ((load_chunked_blob_data_to_postgres n c table
        (fun i => i == k)).1).dropLast, t.committed = true ∧ t.rows = c) ∧
    ((((load_chunked_blob_data_to_postgres n c table
        (fun i => i == k)).1).dropLast).map Txn.rows).sum = (k - 1) * c ∧
    ((load_chunked_blob_data_to_postgres n c table
        (fun i => i == k)).1).getLast?.map Txn.committed = some false := by
  have key := loadLoop_failAt c k table hT hc n hreach (n + 1) 0 0
    (by omega) (by omega) (by omega)
  rw [load_chunked_blob_data_to_postgres]
  obtain ⟨h2, hlen, hidx, hdrop, hlastc, _⟩ := key
  refine ⟨h2, by simpa using hlen, by simpa using hidx, hdrop, ?_, hlastc⟩
  have hmap : (((loadLoopFuel c table (fun i => i == k) n (n + 1) 0 0).1).dropLast).map
      Txn.rows = List.replicate (k - 1) c := by
    have hall : ∀ b ∈ (((loadLoopFuel c table (fun i => i == k) n
        (n + 1) 0 0).1).dropLast).map Txn.rows, b = c := by
      intro b hb
      obtain ⟨t, ht, rfl⟩ := List.mem_map.mp hb
      exact (hdrop t ht).2
    have := List.eq_replicate_of_mem hall
    rw [this, List.length_map, List.length_dropLast, hlen]
    rfl
  rw [hmap, List.sum_replicate, smul_eq_mul]

theorem C3_witness :
    (load_chunked_blob_data_to_postgres 5 2 "zip_county"
      (fun i => i == 2)).2 = false ∧
    ((load_chunked_blob_data_to_postgres 5 2 "zip_county"
      (fun i => i == 2)).1).length = 2 ∧
    ((load_chunked_blob_data_to_postgres 5 2 "zip_county"
      (fun i => i == 2)).1).getLast?.map Txn.committed = some false :=
  ⟨(C3_chunk_failure_aborts 5 2 2 "zip_county" (by decide) (by decide)
      (by decide) (by decide)).1,
   (C3_chunk_failure_aborts 5 2 2 "zip_county" (by decide) (by decide)
      (by decide) (by decide)).2.1,
   (C3_chunk_failure_aborts 5 2 2 "zip_county" (by decide) (by decide)
      (by decide) (by decide)).2.2.2.2.2⟩

/-- Claim C6: the demo cap applies only to the `nppes_providers` table —
its load is the full chunk decomposition truncated to the first 5 windows
(so at most 5 chunks and at most `5*c` rows are committed, and when more
than `5*c` rows are available exactly `5*c` are loaded and the remainder
is abandoned), while every other target table loads its full `ceil(n/c)`
windows summing to all `n` rows. -/
theorem C6_demo_row_cap (n c : Nat) (hc : 0 < c) :
    loadedWindows n c "nppes_providers" = (chunkLens n c).take 5 ∧
    (∀ table, table ≠ "nppes_providers" →
      loadedWindows n c table = chunkLens n c ∧
      (loadedWindows n c table).sum = n) ∧
    (loadedWindows n c "nppes_providers").length ≤ 5 ∧
    (loadedWindows n c "nppes_providers").sum ≤ 5 * c ∧
    (5 * c < n → (loadedWindows n c "nppes_providers").sum = 5 * c) := by
  refine ⟨loadedWindows_nppes_eq n c, ?_, ?_, ?_, ?_⟩
  · intro table hT
    exact ⟨loadedWindows_eq_chunkLens n c table hT,
      by rw [loadedWindows_eq_chunkLens n c table hT]; exact chunkLens_sum n c hc⟩
  · rw [loadedWindows_nppes_eq n c, List.length_take]
    omega
  · rw [loadedWindows_nppes_eq n c]
    have hb : ∀ x ∈ (chunkLens n c).take 5, x ≤ c := by
      intro x hx
      exact chunkLens_mem_le n c x (List.take_subset 5 (chunkLens n c) hx)
    calc ((chunkLens n c).take 5).sum
        ≤ ((chunkLens n c).take 5).length • c :=
          List.sum_le_card_nsmul _ c hb
      _ ≤ 5 * c := by
          rw [smul_eq_mul, List.length_take]
          have : min 5 (chunkLens n c).length ≤ 5 := by omega
          exact Nat.mul_le_mul_right c this
  · intro hmore
    rw [loadedWindows_nppes_eq n c]
    have hlen5 : 5 < (chunkLens n c).length := by
      rw [chunkLens_length n c hc]
      have h6 : 6 ≤ (n + c - 1) / c := by
        rw [Nat.le_div_iff_mul_le hc]
        omega
      omega
    exact chunkLens_take_sum n c hc 5 hlen5

theorem runPipeline_cons_skip (s : SourceSpec) (rest : List SourceSpec)
    (hs : extract_csv_data_from_blob s.stream s.relevant s.mapping = none) :
    runPipeline (s :: rest) = runPipeline rest := by
  rw [runPipeline, hs]

theorem runPipeline_cons_abort (s : SourceSpec) (rest : List SourceSpec)
    (lf : LazyFrame)
    (hs : extract_csv_data_from_blob s.stream s.relevant s.mapping = some lf)
    (hc : lf.collectSchema = none) :
    runPipeline (s :: rest) = ([], false) := by
  rw [runPipeline, hs]
  dsimp only
  rw [hc]

theorem runPipeline_cons_load (s : SourceSpec) (rest : List SourceSpec)
    (lf : LazyFrame) (f : Frame)
    (hs : extract_csv_data_from_blob s.stream s.relevant s.mapping = some lf)
    (hc : lf.collectSchema = some f) :
    runPipeline (s :: rest) =
      (s.table :: (runPipeline rest).1, (runPipeline rest).2) := by
  rw [runPipeline, hs]
  dsimp only
  rw [hc]

theorem runPipeline_skip (s : SourceSpec)
    (hs : extract_csv_data_from_blob s.stream s.relevant s.mapping = none) :
    ∀ pre post, runPipeline (pre ++ s :: post) = runPipeline (pre ++ post) := by
  intro pre
  induction pre with
  | nil =>
    intro post
    simp only [List.nil_append]
    exact runPipeline_cons_skip s post hs
  | cons p pre ih =>
    intro post
    simp only [List.cons_append]
    cases hp : extract_csv_data_from_blob p.stream p.relevant p.mapping with
    | none =>
      rw [runPipeline_cons_skip p _ hp, runPipeline_cons_skip p _ hp, ih post]
    | some lf =>
      cases hlc : lf.collectSchema with
      | none =>
        rw [runPipeline_cons_abort p _ lf hp hlc,
          runPipeline_cons_abort p _ lf hp hlc]
      | some f =>
        rw [runPipeline_cons_load p _ lf f hp hlc,
          runPipeline_cons_load p _ lf f hp hlc, ih post]

theorem runPipeline_abort (s : SourceSpec) (lf : LazyFrame)
    (hs : extract_csv_data_from_blob s.stream s.relevant s.mapping = some lf)
    (hc : lf.collectSchema = none) :
    ∀ pre post, (runPipeline pre).2 = true →
      runPipeline (pre ++ s :: post) = ((runPipeline pre).1, false) := by
  intro pre
  induction pre with
  | nil =>
    intro post _
    simp only [List.nil_append]
    exact runPipeline_cons_abort s post lf hs hc
  | cons p pre ih =>
    intro post hok
    simp only [List.cons_append]
    cases hp : extract_csv_data_from_blob p.stream p.relevant p.mapping with
    | none =>
      have hok' : (runPipeline pre).2 = true := by
        rw [runPipeline_cons_skip p pre hp] at hok
        exact hok
      rw [runPipeline_cons_skip p _ hp, ih post hok',
        runPipeline_cons_skip p pre hp]
    | some lf' =>
      cases hlc : lf'.collectSchema with
      | none =>
        exfalso
        rw [runPipeline_cons_abort p pre lf' hp hlc] at hok
        simp at hok
      | some f =>
        have hok' : (runPipeline pre).2 = true := by
          rw [runPipeline_cons_load p pre lf' f hp hlc] at hok
          exact hok
        rw [runPipeline_cons_load p _ lf' f hp hlc, ih post hok',
          runPipeline_cons_load p pre lf' f hp hlc]

/-- Claim C4 (corrected): the extractor's `try/except` does NOT turn a
missing retain-list column into an absent result — here the retain list
requests column `B` which the source lacks, yet extraction returns a
lazy plan, not `None`; and instead of that source being skipped, the run
over three sources loads the first, then aborts when the faulty plan's
first collect raises inside the loader: the third source is never
processed. -/
theorem C4_counterexample :
    extract_csv_data_from_blob (some (some ⟨["A"]⟩)) ["A", "B"] [] ≠
      none ∧
    runPipeline
      [⟨some (some ⟨["X"]⟩), [], [], "t1"⟩,
       ⟨some (some ⟨["A"]⟩), ["A", "B"], [], "t2"⟩,
       ⟨some (some ⟨["Y"]⟩), [], [], "t3"⟩] = (["t1"], false) ∧
    "t3" ∉ (runPipeline
      [⟨some (some ⟨["X"]⟩), [], [], "t1"⟩,
       ⟨some (some ⟨["A"]⟩), ["A", "B"], [], "t2"⟩,
       ⟨some (some ⟨["Y"]⟩), [], [], "t3"⟩]).1 :=
  ⟨by decide, by decide, by decide⟩

/-- Claim C4 (amended): only a failure to obtain the source's byte
stream is caught by `extract_csv_data_from_blob` and returned as an
absent result, and the caller skips exactly that source, proceeding
with the remaining sources unchanged.  A source whose bytes do not
parse, or whose retain list names a column the source lacks, is NOT
caught at extraction: the plan is returned, its collection fails, and
that failure — first surfacing at the collect inside the Chunked
Loader — is re-raised, aborting the run: the tables loaded are exactly
those of the sources before the faulty one, and no source after it is
processed. -/
theorem C4_stream_failure_skips_plan_error_aborts (relevant : List String)
    (mapping : List (String × String)) :
    (extract_csv_data_from_blob none relevant mapping = none) ∧
    (∀ p : Option Frame,
      extract_csv_data_from_blob (some p) relevant mapping =
        some ⟨p, relevant, mapping⟩) ∧
    ((LazyFrame.mk none relevant mapping).collectSchema = none) ∧
    (∀ f : Frame, relevant ≠ [] →
      (∃ col ∈ relevant, f.cols.contains col = false) →
      (LazyFrame.mk (some f) relevant mapping).collectSchema = none) ∧
    (∀ (pre post : List SourceSpec) (s : SourceSpec),
      extract_csv_data_from_blob s.stream s.relevant s.mapping = none →
      runPipeline (pre ++ s :: post) = runPipeline (pre ++ post)) ∧
    (∀ (pre post : List SourceSpec) (s : SourceSpec) (lf : LazyFrame),
      extract_csv_data_from_blob s.stream s.relevant s.mapping = some lf →
      lf.collectSchema = none → (runPipeline pre).2 = true →
      runPipeline (pre ++ s :: post) = ((runPipeline pre).1, false)) := by
  refine ⟨rfl, fun p => rfl, rfl, ?_,
    fun pre post s hs => runPipeline_skip s hs pre post,
    fun pre post s lf hs hc hok => runPipeline_abort s lf hs hc pre post hok⟩
  intro f hne ⟨col, hcol, hmiss⟩
  simp only [LazyFrame.collectSchema]
  rw [if_neg hne]
  have hall : relevant.all (fun c => f.cols.contains c) = false := by
    rw [List.all_eq_false]
    exact ⟨col, hcol, by simpa using hmiss⟩
  rw [hall]
  rfl

theorem C4_witness :
    runPipeline ([⟨some (some ⟨["X"]⟩), [], [], "t1"⟩] ++
      (⟨some (some ⟨["A"]⟩), ["A", "B"], [], "t2"⟩ : SourceSpec) ::
        [⟨some (some ⟨["Y"]⟩), [], [], "t3"⟩]) =
      ((runPipeline [⟨some (some ⟨["X"]⟩), [], [], "t1"⟩]).1, false) ∧
    runPipeline ([] ++ (⟨none, [], [], "t0"⟩ : SourceSpec) ::
      [⟨some (some ⟨["Y"]⟩), [], [], "t3"⟩]) =
      runPipeline ([] ++ [⟨some (some ⟨["Y"]⟩), [], [], "t3"⟩]) :=
  ⟨(C4_stream_failure_skips_plan_error_aborts ["A", "B"] []).2.2.2.2.2
      [⟨some (some ⟨["X"]⟩), [], [], "t1"⟩]
      [⟨some (some ⟨["Y"]⟩), [], [], "t3"⟩]
      ⟨some (some ⟨["A"]⟩), ["A", "B"], [], "t2"⟩
      ⟨some ⟨["A"]⟩, ["A", "B"], []⟩ rfl (by decide) (by decide),
   (C4_stream_failure_skips_plan_error_aborts [] []).2.2.2.2.1 []
      [⟨some (some ⟨["Y"]⟩), [], [], "t3"⟩] ⟨none, [], [], "t0"⟩ rfl⟩

/-- Claim C5 (corrected): with an empty retain list the extractor's plan
carries no select/rename node, so the schema that materializes is the
scanned frame unchanged — the rename mapping is NOT applied.  Here the
mapping sends source column `A` to canonical name `a`, yet the collected
result still has column `A`. -/
theorem C5_counterexample :
    (extract_csv_data_from_blob (some (some ⟨["A"]⟩)) []
      [("A", "a")]).bind LazyFrame.collectSchema = some ⟨["A"]⟩ ∧
    renameCol [("A", "a")] "A" = "a" ∧
    (some (⟨["A"]⟩ : Frame) ≠ some ⟨["a"]⟩) := by
  refine ⟨rfl, rfl, by decide⟩

/-- Claim C5 (amended): for a successfully parsed source, a non-empty
retain list whose columns all exist yields (once the plan is collected)
exactly the retain-list columns, in retain-list order, with names
rewritten per the rename mapping; an empty retain list (= retain all)
yields the source frame unchanged, in source column order with the
original names (the rename mapping is not applied in that branch). -/
theorem C5_schema_projection (f : Frame) (relevant : List String)
    (mapping : List (String × String)) :
    (relevant ≠ [] → relevant.all (fun c => f.cols.contains c) = true →
      (extract_csv_data_from_blob (some (some f)) relevant mapping).bind
        LazyFrame.collectSchema =
        some ⟨relevant.map (renameCol mapping)⟩) ∧
    (extract_csv_data_from_blob (some (some f)) [] mapping).bind
      LazyFrame.collectSchema = some f := by
  constructor
  · intro hne hall
    show (LazyFrame.mk (some f) relevant mapping).collectSchema = _
    simp only [LazyFrame.collectSchema]
    rw [if_neg hne, if_pos hall]
  · show (LazyFrame.mk (some f) [] mapping).collectSchema = some f
    simp [LazyFrame.collectSchema]

theorem C5_witness :
    (extract_csv_data_from_blob (some (some ⟨["ZIP", "COUNTY", "EXTRA"]⟩))
      ["ZIP", "COUNTY"] [("ZIP", "zip"), ("COUNTY", "county")]).bind
      LazyFrame.collectSchema = some ⟨["zip", "county"]⟩ ∧
    (extract_csv_data_from_blob (some (some ⟨["ssa_code", "fipscounty"]⟩))
      [] []).bind LazyFrame.collectSchema =
      some ⟨["ssa_code", "fipscounty"]⟩ := by
  have h := C5_schema_projection ⟨["ZIP", "COUNTY", "EXTRA"]⟩
    ["ZIP", "COUNTY"] [("ZIP", "zip"), ("COUNTY", "county")]
  exact ⟨h.1 (by decide) (by decide),
    (C5_schema_projection ⟨["ssa_code", "fipscounty"]⟩ [] []).2⟩

theorem C6_witness :
    loadedWindows 11 2 "nppes_providers" = (chunkLens 11 2).take 5 ∧
    (loadedWindows 11 2 "nppes_providers").sum ≤ 5 * 2 ∧
    (loadedWindows 11 2 "nppes_providers").sum = 5 * 2 ∧
    loadedWindows 11 2 "zip_county" = chunkLens 11 2 :=
  ⟨(C6_demo_row_cap 11 2 (by decide)).1,
   (C6_demo_row_cap 11 2 (by decide)).2.2.2.1,
   (C6_demo_row_cap 11 2 (by decide)).2.2.2.2 (by decide),
   ((C6_demo_row_cap 11 2 (by decide)).2.1 "zip_county" (by decide)).1⟩

theorem flatMap_doubleQuote_eq_self (l : List Char)
    (h : ∀ c ∈ l, c ≠ '"') :
    (l.flatMap fun ch => if ch = '"' then ['"', '"'] else [ch]) = l := by
  induction l with
  | nil => rfl
  | cons c cs ih =>
    rw [List.flatMap_cons, if_neg (h c (List.mem_cons_self c cs)),
      ih fun x hx => h x (List.mem_cons.mpr (Or.inr hx))]
    rfl

theorem escapeQuotes_eq_self (s : String) (h : ∀ c ∈ s.data, c ≠ '"') :
    escapeQuotes s = s := by
  rw [escapeQuotes, flatMap_doubleQuote_eq_self s.data h]

/-- Claim C7: the exporter renders a NULL as the two-character field
`""`; every non-null field is wrapped in double quotes after its internal
double quotes are doubled (a quote-free value is wrapped unchanged); the
designated postal-code column `provider_postal_code_clean` — position 7
of the export header — is zero-padded to width 5 before quoting; and
concretely, the row `(None, "00501")` renders as `"","00501"`, the postal
value `"501"` renders as `"00501"`, and an embedded quote is doubled. -/
theorem C7_csv_field_rendering :
    (∀ h : String, escapeField h none = "\"\"") ∧
    (∀ h v, h ≠ "provider_postal_code_clean" →
      escapeField h (some v) = "\"" ++ escapeQuotes v ++ "\"") ∧
    (∀ v, escapeField "provider_postal_code_clean" (some v) =
      "\"" ++ escapeQuotes (zfill 5 v) ++ "\"") ∧
    (∀ v : String, (∀ c ∈ v.data, c ≠ '"') → escapeQuotes v = v) ∧
    exportHeaders[7]? = some "provider_postal_code_clean" ∧
    renderRow [none, some "00501"] = "\"\",\"00501\"" ∧
    escapeField "provider_postal_code_clean" (some "501") = "\"00501\"" ∧
    escapeField "npi" (some "a\"b") = "\"a\"\"b\"" := by
  refine ⟨fun h => rfl, ?_, fun v => rfl, escapeQuotes_eq_self, ?_, ?_, ?_, ?_⟩
  · intro h v hne
    rw [escapeField, if_neg hne]
  · rfl
  · rfl
  · rfl
  · rfl

theorem C7_witness :
    escapeField "entity_type" (some "00501") =
      "\"" ++ escapeQuotes "00501" ++ "\"" ∧
    escapeQuotes "00501" = "00501" :=
  ⟨C7_csv_field_rendering.2.1 "entity_type" "00501" (by decide),
   C7_csv_field_rendering.2.2.2.1 "00501" (by decide)⟩

theorem exportLoopFuel_succ {α : Type} (db : List α) (c fuel offset : Nat) :
    exportLoopFuel db c (fuel + 1) offset =
      (if (get_export_chunk db c offset).length = 0 then
        [get_export_chunk db c offset]
       else if (get_export_chunk db c offset).length < c then
        [get_export_chunk db c offset]
       else get_export_chunk db c offset ::
         exportLoopFuel db c fuel (offset + c)) := rfl

theorem get_export_chunk_length {α : Type} (db : List α) (c offset : Nat) :
    (get_export_chunk db c offset).length = min c (db.length - offset) := by
  rw [get_export_chunk, List.length_take, List.length_drop]

theorem exportLoop_spec {α : Type} (db : List α) (c : Nat) (hc : 0 < c) :
    ∀ fuel offset, db.length - offset < fuel →
      ((exportLoopFuel db c fuel offset).flatten = db.drop offset) ∧
      (∀ i, i < (exportLoopFuel db c fuel offset).length →
        (exportLoopFuel db c fuel offset)[i]? =
          some ((db.drop (offset + i * c)).take c)) ∧
      ((exportLoopFuel db c fuel offset).getLast?.map List.length =
        some ((db.length - offset) % c)) ∧
      (∀ i, i + 1 < (exportLoopFuel db c fuel offset).length →
        (exportLoopFuel db c fuel offset)[i]?.map List.length = some c) := by
  intro fuel
  induction fuel with
  | zero => intro offset h; omega
  | succ fuel ih =>
    intro offset h
    rw [exportLoopFuel_succ]
    have hlen := get_export_chunk_length db c offset
    by_cases h0 : (get_export_chunk db c offset).length = 0
    · rw [if_pos h0]
      have hm : db.length - offset = 0 := by omega
      have hdrop : db.drop offset = [] :=
        List.drop_eq_nil_of_le (by omega)
      have hchunk : get_export_chunk db c offset = [] := by
        rw [get_export_chunk, hdrop, List.take_nil]
      refine ⟨?_, ?_, ?_, ?_⟩
      · rw [hchunk, hdrop]; rfl
      · intro i hi
        have : i = 0 := by simpa using hi
        subst this
        rw [List.getElem?_cons_zero]
        rw [show offset + 0 * c = offset by omega]
        rfl
      · rw [List.getLast?_singleton, Option.map_some', h0, hm, Nat.zero_mod]
      · intro i hi
        simp at hi
    · rw [if_neg h0]
      by_cases hs : (get_export_chunk db c offset).length < c
      · rw [if_pos hs]
        have hm : db.length - offset < c := by omega
        have hchunk : get_export_chunk db c offset = db.drop offset := by
          rw [get_export_chunk]
          exact List.take_of_length_le (by rw [List.length_drop]; omega)
        refine ⟨?_, ?_, ?_, ?_⟩
        · rw [hchunk]; exact List.flatten_cons ▸ (by rw [List.flatten_nil, List.append_nil])
        · intro i hi
          have : i = 0 := by simpa using hi
          subst this
          rw [List.getElem?_cons_zero]
          rw [show offset + 0 * c = offset by omega]
          rfl
        · rw [List.getLast?_singleton, Option.map_some', hlen,
            Nat.mod_eq_of_lt hm]
          congr 1
          omega
        · intro i hi
          simp at hi
      · rw [if_neg hs]
        have hmc : min c (db.length - offset) = c := by omega
        have hcm : c ≤ db.length - offset := by omega
        have hrec := ih (offset + c) (by omega)
        obtain ⟨hflat, hidx, hlast, hfull⟩ := hrec
        have hne : exportLoopFuel db c fuel (offset + c) ≠ [] := by
          intro hcontra
          rw [hcontra] at hlast
          simp at hlast
        refine ⟨?_, ?_, ?_, ?_⟩
        · rw [List.flatten_cons, hflat, get_export_chunk]
          rw [← List.drop_drop, List.take_append_drop]
        · intro i hi
          cases i with
          | zero =>
            rw [List.getElem?_cons_zero]
            rw [show offset + 0 * c = offset by omega]
            rfl
          | succ j =>
            rw [List.getElem?_cons_succ]
            have hj : j < (exportLoopFuel db c fuel (offset + c)).length := by
              simpa using hi
            rw [hidx j hj, show offset + c + j * c = offset + (j + 1) * c by ring]
        · rw [getLast?_cons_ne _ _ hne, hlast]
          congr 1
          rw [show db.length - (offset + c) = (db.length - offset) - c by omega]
          conv_rhs => rw [show db.length - offset = ((db.length - offset) - c) + c by omega]
          rw [Nat.add_mod_right]
        · intro i hi
          cases i with
          | zero =>
            rw [List.getElem?_cons_zero, Option.map_some', hlen, hmc]
          | succ j =>
            rw [List.getElem?_cons_succ]
            exact hfull j (by simpa using hi)

/-- Claim C8: the exporter fetches pages via `get_export_chunk` at
offsets `0, c, 2c, ...` (page `i` is exactly the store slice at offset
`i*c`), every fetched row — including the final partial page — appears in
the artifact exactly once and in order (the artifact's lines are the
header line followed by one rendered line per store row), every non-final
page is full, the final page is the short (or empty) remainder
`db.length % c`, and over 5 rows with page size 2 the calls return pages
of sizes 2, 2, 1 with no further empty-page call. -/
theorem C8_export_pagination (db : List (List (Option String))) (c : Nat)
    (hc : 0 < c) :
    ((exportPages db c).flatten = db) ∧
    (∀ i, i < (exportPages db c).length →
      (exportPages db c)[i]? = some (get_export_chunk db c (i * c))) ∧
    (∀ i, i + 1 < (exportPages db c).length →
      (exportPages db c)[i]?.map List.length = some c) ∧
    ((exportPages db c).getLast?.map List.length = some (db.length % c)) ∧
    (exportLines db c = headerLine :: db.map renderRow) ∧
    ((exportPages (List.replicate 5 ([] : List (Option String))) 2).map
      List.length = [2, 2, 1]) := by
  have key := exportLoop_spec db c hc (db.length + 1) 0 (by omega)
  obtain ⟨hflat, hidx, hlast, hfull⟩ := key
  rw [List.drop_zero] at hflat
  refine ⟨hflat, ?_, hfull, ?_, ?_, by decide⟩
  · intro i hi
    rw [exportPages, hidx i hi, get_export_chunk]
    rw [show (0:Nat) + i * c = i * c by omega]
  · rw [exportPages]
    rw [hlast]
    rfl
  · rw [exportLines, exportPages, hflat]

theorem C8_witness :
    (exportPages (List.replicate 3 ([] : List (Option String))) 2).flatten =
      List.replicate 3 [] ∧
    (exportPages (List.replicate 3 ([] : List (Option String)))
      2).getLast?.map List.length = some (3 % 2) :=
  ⟨(C8_export_pagination (List.replicate 3 []) 2 (by decide)).1,
   (C8_export_pagination (List.replicate 3 []) 2 (by decide)).2.2.2.1⟩

/-- Claim C9: after `load_api_data`'s integer coercion of the population
column (non-coercible values become null) and its required-column filter,
every surviving row has all four retained columns non-null; the string
`abc` does not coerce, so a row with population `"abc"` is dropped, while
a row with a numeric population survives with the parsed value. -/
theorem C9_population_coercion_null_drop (rows : List ApiRow) :
    (∀ r ∈ load_api_data_filtered rows,
      r.name.isSome = true ∧ r.population.isSome = true ∧
      r.state_fips.isSome = true ∧ r.county_fips.isSome = true) ∧
    (∀ r : ApiRow, (castPopulation r).population =
      r.population.bind parseInt32) ∧
    parseInt32 "abc" = none ∧
    load_api_data_filtered
      [⟨some "Autauga County", some "abc", some "01", some "001"⟩] = [] ∧
    load_api_data_filtered
      [⟨some "Autauga County", some "58805", some "01", some "001"⟩] =
      [⟨some "Autauga County", some 58805, some "01", some "001"⟩] := by
  refine ⟨?_, fun r => rfl, by decide, by decide, by decide⟩
  intro r hr
  rw [load_api_data_filtered, dropNullRequired] at hr
  have hpred := (List.mem_filter.mp hr).2
  simp only [Bool.and_eq_true] at hpred
  exact ⟨hpred.1.1.2, hpred.1.1.1, hpred.1.2, hpred.2⟩

theorem C9_witness :
    (⟨some "Autauga County", some 58805, some "01", some "001"⟩ :
        ApiRowTyped).name.isSome = true ∧
    (⟨some "Autauga County", some 58805, some "01", some "001"⟩ :
        ApiRowTyped).population.isSome = true :=
  ⟨((C9_population_coercion_null_drop
      [⟨some "Autauga County", some "58805", some "01", some "001"⟩]).1
      ⟨some "Autauga County", some 58805, some "01", some "001"⟩
      (by decide)).1,
   ((C9_population_coercion_null_drop
      [⟨some "Autauga County", some "58805", some "01", some "001"⟩]).1
      ⟨some "Autauga County", some 58805, some "01", some "001"⟩
      (by decide)).2.1⟩

theorem splitOnChar_ne_nil (sep : Char) : ∀ l, splitOnChar sep l ≠ [] := by
  intro l
  induction l with
  | nil => simp [splitOnChar]
  | cons c cs ih =>
    rw [splitOnChar]
    by_cases hc : c = sep
    · simp [hc]
    · rw [if_neg hc]
      cases hrec : splitOnChar sep cs with
      | nil => simp
      | cons q qs => simp

theorem mem_splitOnChar_not_sep (sep : Char) :
    ∀ l p, p ∈ splitOnChar sep l → sep ∉ p := by
  intro l
  induction l with
  | nil =>
    intro p hp
    rw [splitOnChar] at hp
    have : p = [] := by simpa using hp
    simp [this]
  | cons c cs ih =>
    intro p hp
    rw [splitOnChar] at hp
    by_cases hc : c = sep
    · rw [if_pos hc] at hp
      rcases List.mem_cons.mp hp with h | h
      · simp [h]
      · exact ih p h
    · rw [if_neg hc] at hp
      cases hrec : splitOnChar sep cs with
      | nil => exact absurd hrec (splitOnChar_ne_nil sep cs)
      | cons q qs =>
        rw [hrec] at hp
        rcases List.mem_cons.mp hp with h | h
        · subst h
          intro hsep
          rcases List.mem_cons.mp hsep with h' | h'
          · exact hc h'.symm
          · exact ih q (by rw [hrec]; exact List.mem_cons_self q qs) h'
        · exact ih p (by rw [hrec]; exact List.mem_cons.mpr (Or.inr h))

theorem mem_splitOnChar_subset (sep : Char) :
    ∀ l p, p ∈ splitOnChar sep l → ∀ x ∈ p, x ∈ l := by
  intro l
  induction l with
  | nil =>
    intro p hp x hx
    rw [splitOnChar] at hp
    have : p = [] := by simpa using hp
    rw [this] at hx
    simp at hx
  | cons c cs ih =>
    intro p hp x hx
    rw [splitOnChar] at hp
    by_cases hc : c = sep
    · rw [if_pos hc] at hp
      rcases List.mem_cons.mp hp with h | h
      · rw [h] at hx; simp at hx
      · exact List.mem_cons.mpr (Or.inr (ih p h x hx))
    · rw [if_neg hc] at hp
      cases hrec : splitOnChar sep cs with
      | nil => exact absurd hrec (splitOnChar_ne_nil sep cs)
      | cons q qs =>
        rw [hrec] at hp
        rcases List.mem_cons.mp hp with h | h
        · subst h
          rcases List.mem_cons.mp hx with h' | h'
          · exact List.mem_cons.mpr (Or.inl h')
          · exact List.mem_cons.mpr (Or.inr
              (ih q (by rw [hrec]; exact List.mem_cons_self q qs) x h'))
        · exact List.mem_cons.mpr (Or.inr
            (ih p (by rw [hrec]; exact List.mem_cons.mpr (Or.inr h)) x hx))

theorem mem_splitlinesPy_no_newline (l : List Char) :
    ∀ line ∈ splitlinesPy l, '\n' ∉ line := by
  intro line hline
  rw [splitlinesPy] at hline
  by_cases hd : (splitOnChar '\n' l).getLast? = some []
  · rw [if_pos hd] at hline
    exact mem_splitOnChar_not_sep '\n' l line (List.dropLast_subset _ hline)
  · rw [if_neg hd] at hline
    exact mem_splitOnChar_not_sep '\n' l line hline

/-- Claim C10: after the tab-separated serialization of the cleaned API
rows, only non-blank lines splitting into exactly 4 tab-separated fields
survive the filter; consequently every loaded line's fields are free of
tabs and newlines, so a cleaned row one of whose field values contains a
tab or a newline is never loaded as a row — no kept line's field tuple
equals that row — even though it passed the null and blank-row filters;
concretely, a row whose last field contains a tab produces no loaded
line at all. -/
theorem C10_tab_newline_rows_dropped (rows : List (List (List Char))) :
    (∀ line ∈ cleaned_lines rows,
      (line.any fun ch => !ch.isWhitespace) = true ∧
      (splitOnChar '\t' line).length = 4 ∧
      '\n' ∉ line ∧
      ∀ p ∈ splitOnChar '\t' line, '\t' ∉ p ∧ '\n' ∉ p) ∧
    (∀ r ∈ rows, (∃ f ∈ r, '\t' ∈ f ∨ '\n' ∈ f) →
      ∀ line ∈ cleaned_lines rows, splitOnChar '\t' line ≠ r) ∧
    cleaned_lines [[['a'], ['b'], ['c'], ['x', '\t', 'y']]] = [] := by
  refine ⟨?_, ?_, by decide⟩
  · intro line hline
    rw [cleaned_lines] at hline
    obtain ⟨hmem, hpred⟩ := List.mem_filter.mp hline
    simp only [Bool.and_eq_true, beq_iff_eq] at hpred
    refine ⟨hpred.1, hpred.2, mem_splitlinesPy_no_newline _ line hmem, ?_⟩
    intro p hp
    refine ⟨mem_splitOnChar_not_sep '\t' line p hp, ?_⟩
    intro hn
    exact mem_splitlinesPy_no_newline _ line hmem
      (mem_splitOnChar_subset '\t' line p hp '\n' hn)
  · intro r hr hbad line hline heq
    obtain ⟨f, hf, hforn⟩ := hbad
    rw [← heq] at hf
    rcases hforn with htab | hnl
    · exact mem_splitOnChar_not_sep '\t' line f hf htab
    · have hmem := (List.mem_filter.mp (by
        rw [cleaned_lines] at hline; exact hline)).1
      exact mem_splitlinesPy_no_newline _ line hmem
        (mem_splitOnChar_subset '\t' line f hf '\n' hnl)

theorem C10_witness :
    splitOnChar '\t' ['a', '\t', 'b', '\t', 'c', '\t', 'd'] ≠
      [['a'], ['b'], ['c'], ['x', '\t', 'y']] :=
  (C10_tab_newline_rows_dropped
      [[['a'], ['b'], ['c'], ['d']],
       [['a'], ['b'], ['c'], ['x', '\t', 'y']]]).2.1
    [['a'], ['b'], ['c'], ['x', '\t', 'y']] (by decide)
    ⟨['x', '\t', 'y'], by decide, Or.inl (by decide)⟩
    ['a', '\t', 'b', '\t', 'c', '\t', 'd'] (by decide)

end FunctionApp
